import Mathlib

/-!
# Verification of the rust-lox bytecode interpreter core

Shallow embedding of the parts of the `lox` crate relevant to the frozen
claims: the Pratt-parser precedence table (`src/lox/src/precedence.rs`),
selected compiler paths (`src/lox/src/compiler.rs`), the instruction codec
(`src/lox-macros/src/lib.rs` + `src/lox/src/opcodes.rs`), the VM's
open-upvalue bookkeeping, call-frame limit and equality check
(`src/lox/src/vm.rs`), and the mark-and-sweep sweep phase
(`src/lox/src/heap.rs`).

Machine integers (`u8`, `u16`, `usize`) are modelled as `Nat` with explicit
`% 2^w` at the places the Rust code performs a narrowing cast; pointers into
the VM value stack are modelled as stack indices.
-/

namespace RustLox

/-- `TokenType` from `src/lox/src/scanner.rs` (all variants, declaration
order preserved). -/
inductive TokenType where
  | LeftParen | RightParen | LeftBrace | RightBrace | Comma | Dot
  | Minus | Plus | SemiColon | Slash | Star
  | Bang | BangEqual | Equal | EqualEqual
  | Greater | GreaterEqual | Less | LessEqual
  | Identifier | String | Number
  | And | Class | Else | False | For | Fun | If | Nil | Or
  | Print | Return | Super | This | True | Var | While
  | Error | EOF | Placeholder
  deriving DecidableEq, Repr

/-- `Precedence` from `src/lox/src/precedence.rs`, declaration order
`None, Assignment, Or, And, Equality, Comparison, Term, Factor, Unary,
Call, Primary`. -/
inductive Precedence where
  | None | Assignment | Or | And | Equality | Comparison
  | Term | Factor | Unary | Call | Primary
  deriving DecidableEq, Repr

namespace Precedence

/-- Discriminant order of the `Precedence` enum; Rust's derived
`PartialOrd` compares by this. -/
def toNat : Precedence → Nat
  | .None => 0
  | .Assignment => 1
  | .Or => 2
  | .And => 3
  | .Equality => 4
  | .Comparison => 5
  | .Term => 6
  | .Factor => 7
  | .Unary => 8
  | .Call => 9
  | .Primary => 10

/-- `<=` of the derived `PartialOrd` on `Precedence`. -/
def ble (a b : Precedence) : Bool := a.toNat ≤ b.toNat

/-- `<` of the derived `PartialOrd` on `Precedence`. -/
def blt (a b : Precedence) : Bool := a.toNat < b.toNat

/-- `Precedence::next_greater` from `src/lox/src/precedence.rs` lines
37-54, including the `Factor => Term` arm exactly as written in the
source.  The `Primary` arm panics in the source; the panic is modelled as
`none`. -/
def next_greater : Precedence → Option Precedence
  | .None => some .Assignment
  | .Assignment => some .Or
  | .Or => some .And
  | .And => some .Equality
  | .Equality => some .Comparison
  | .Comparison => some .Term
  | .Term => some .Factor
  | .Factor => some .Term
  | .Unary => some .Call
  | .Call => some .Primary
  | .Primary => none

end Precedence

/-- The prefix handlers that occur in the parse-rule table of
`src/lox/src/precedence.rs`. -/
inductive PrefixFn where
  | grouping | unary | number | literal | string | variable
  deriving DecidableEq, Repr

/-- The infix handlers that occur in the parse-rule table of
`src/lox/src/precedence.rs`. -/
inductive InfixFn where
  | binary
  deriving DecidableEq, Repr

/-- `ParseRule` from `src/lox/src/precedence.rs` (the handler closures are
represented by tags; only their identity matters for the claims). -/
structure ParseRule where
  prefixFn : Option PrefixFn
  infixFn : Option InfixFn
  curr_prec : Precedence
  deriving DecidableEq, Repr

/-- `parse_rule` from `src/lox/src/precedence.rs` lines 137-154: the match
over `TokenType` with its catch-all `PLACEHOLDER_PARSERULE` arm. -/
def parse_rule : TokenType → ParseRule
  | .LeftParen => ⟨some .grouping, none, .None⟩
  | .Minus => ⟨some .unary, some .binary, .Term⟩
  | .Plus => ⟨none, some .binary, .Term⟩
  | .Slash | .Star => ⟨none, some .binary, .Factor⟩
  | .Number => ⟨some .number, none, .None⟩
  | .False | .Nil | .True => ⟨some .literal, none, .None⟩
  | .Bang => ⟨some .unary, none, .None⟩
  | .BangEqual | .EqualEqual => ⟨none, some .binary, .Equality⟩
  | .Greater | .GreaterEqual | .Less | .LessEqual => ⟨none, some .binary, .Comparison⟩
  | .String => ⟨some .string, none, .None⟩
  | .Identifier => ⟨some .variable, none, .None⟩
  | _ => ⟨none, none, .None⟩

/-- The can-assign flag computed by `Compiler::parse_precedence`
(`src/lox/src/compiler.rs` line 916): `*curr_prec <= Precedence::Assignment`,
where `curr_prec` is destructured from `parse_rule(self.tin.cur.kind)` —
the rule of the *current token*, not the `prec_bound` argument of
`parse_precedence`. -/
def parse_precedence_can_assign (cur : TokenType) : Bool :=
  Precedence.ble (parse_rule cur).curr_prec .Assignment

/-- The minimum-precedence bound `Compiler::binary`
(`src/lox/src/compiler.rs` line 298) passes for the right operand of a
binary operator: `parse_rule(op_type).curr_prec.next_greater()`. -/
def binary_rhs_min (op : TokenType) : Option Precedence :=
  (parse_rule op).curr_prec.next_greater

/-- `Instruction` from `src/lox/src/opcodes.rs` lines 20-74, all 33
variants in declaration order.  Operand types in the source:
`ConstantIndex = u8`, `ByteCodeOffset = u16`, `ArgCount = u8`,
`UpValueIndex = u8`; they are modelled as `Nat` together with the
well-formedness predicate `Instruction.wf` bounding them by their
machine-integer range. -/
inductive Instruction where
  | Return
  | LoadConstant (idx : Nat)
  | Negate | Not | Add | Subtract | Multiply | Divide | Equal | Greater | Less
  | Nil | True | False
  | Print
  | Pop
  | DefineGlobal (idx : Nat)
  | GetGlobal (idx : Nat)
  | SetGlobal (idx : Nat)
  | GetLocal (idx : Nat)
  | SetLocal (idx : Nat)
  | JumpFwdIfFalse (off : Nat)
  | JumpForward (off : Nat)
  | JumpBack (off : Nat)
  | Call (argc : Nat)
  | Closure (idx : Nat)
  | GetUpvalue (i : Nat)
  | SetUpvalue (i : Nat)
  | CloseUpvalue
  | Class (idx : Nat)
  | GetProperty (idx : Nat)
  | SetProperty (idx : Nat)
  | Method (idx : Nat)
  | Invoke (idx : Nat) (argc : Nat)
  | Inherit
  | GetSuper (idx : Nat)
  | SuperInvoke (idx : Nat) (argc : Nat)
  deriving DecidableEq, Repr

namespace Instruction

/-- Operand bytes of a `u8` field: `dest.extend_from_slice(&a.to_ne_bytes())`
in the generated `encode` (`src/lox-macros/src/lib.rs`, `gen_encode`). -/
def encodeU8 (n : Nat) : List Nat := [n % 256]

/-- Operand bytes of a `u16` field, `to_ne_bytes` byte order.  Host
endianness is modelled as little-endian; since `decode` below uses the
same convention (`from_ne_bytes`), the round-trip is independent of the
choice. -/
def encodeU16 (n : Nat) : List Nat := [n % 256, n / 256 % 256]

/-- The derived `encode` of `Instruction` (`src/lox-macros/src/lib.rs`,
`gen_encode`): one tag byte equal to the variant's declaration index,
followed by the operand bytes in field order. -/
def encode : Instruction → List Nat
  | .Return => [0]
  | .LoadConstant i => 1 :: encodeU8 i
  | .Negate => [2]
  | .Not => [3]
  | .Add => [4]
  | .Subtract => [5]
  | .Multiply => [6]
  | .Divide => [7]
  | .Equal => [8]
  | .Greater => [9]
  | .Less => [10]
  | .Nil => [11]
  | .True => [12]
  | .False => [13]
  | .Print => [14]
  | .Pop => [15]
  | .DefineGlobal i => 16 :: encodeU8 i
  | .GetGlobal i => 17 :: encodeU8 i
  | .SetGlobal i => 18 :: encodeU8 i
  | .GetLocal i => 19 :: encodeU8 i
  | .SetLocal i => 20 :: encodeU8 i
  | .JumpFwdIfFalse o => 21 :: encodeU16 o
  | .JumpForward o => 22 :: encodeU16 o
  | .JumpBack o => 23 :: encodeU16 o
  | .Call a => 24 :: encodeU8 a
  | .Closure i => 25 :: encodeU8 i
  | .GetUpvalue i => 26 :: encodeU8 i
  | .SetUpvalue i => 27 :: encodeU8 i
  | .CloseUpvalue => [28]
  | .Class i => 29 :: encodeU8 i
  | .GetProperty i => 30 :: encodeU8 i
  | .SetProperty i => 31 :: encodeU8 i
  | .Method i => 32 :: encodeU8 i
  | .Invoke i a => 33 :: encodeU8 i ++ encodeU8 a
  | .Inherit => [34]
  | .GetSuper i => 35 :: encodeU8 i
  | .SuperInvoke i a => 36 :: encodeU8 i ++ encodeU8 a

/-- `u8::decode` from `src/lox/src/opcodes.rs` lines 323-329: take one
byte, advance the slice.  Running off the end of the slice is undefined
behaviour in the source (`get_unchecked`); it is modelled as `none`. -/
def decodeU8 : List Nat → Option (Nat × List Nat)
  | b :: rest => some (b, rest)
  | [] => none

/-- `u16::decode` from `src/lox/src/opcodes.rs` lines 315-321
(`from_ne_bytes` of two bytes, same endianness convention as
`encodeU16`). -/
def decodeU16 : List Nat → Option (Nat × List Nat)
  | b0 :: b1 :: rest => some (b0 + 256 * b1, rest)
  | _ => none

/-- The derived `decode` of `Instruction` (`src/lox-macros/src/lib.rs`,
`gen_decode`): read the tag byte, dispatch on it, read the operand fields
in order, and return the decoded instruction together with the remaining
bytes.  The `panic!("Invalid instruction byte code")` catch-all and the
out-of-bounds slice reads are modelled as `none`. -/
def decode : List Nat → Option (Instruction × List Nat)
  | [] => none
  | tag :: rest =>
    match tag with
    | 0 => some (.Return, rest)
    | 1 => (decodeU8 rest).map fun (a, r) => (.LoadConstant a, r)
    | 2 => some (.Negate, rest)
    | 3 => some (.Not, rest)
    | 4 => some (.Add, rest)
    | 5 => some (.Subtract, rest)
    | 6 => some (.Multiply, rest)
    | 7 => some (.Divide, rest)
    | 8 => some (.Equal, rest)
    | 9 => some (.Greater, rest)
    | 10 => some (.Less, rest)
    | 11 => some (.Nil, rest)
    | 12 => some (.True, rest)
    | 13 => some (.False, rest)
    | 14 => some (.Print, rest)
    | 15 => some (.Pop, rest)
    | 16 => (decodeU8 rest).map fun (a, r) => (.DefineGlobal a, r)
    | 17 => (decodeU8 rest).map fun (a, r) => (.GetGlobal a, r)
    | 18 => (decodeU8 rest).map fun (a, r) => (.SetGlobal a, r)
    | 19 => (decodeU8 rest).map fun (a, r) => (.GetLocal a, r)
    | 20 => (decodeU8 rest).map fun (a, r) => (.SetLocal a, r)
    | 21 => (decodeU16 rest).map fun (a, r) => (.JumpFwdIfFalse a, r)
    | 22 => (decodeU16 rest).map fun (a, r) => (.JumpForward a, r)
    | 23 => (decodeU16 rest).map fun (a, r) => (.JumpBack a, r)
    | 24 => (decodeU8 rest).map fun (a, r) => (.Call a, r)
    | 25 => (decodeU8 rest).map fun (a, r) => (.Closure a, r)
    | 26 => (decodeU8 rest).map fun (a, r) => (.GetUpvalue a, r)
    | 27 => (decodeU8 rest).map fun (a, r) => (.SetUpvalue a, r)
    | 28 => some (.CloseUpvalue, rest)
    | 29 => (decodeU8 rest).map fun (a, r) => (.Class a, r)
    | 30 => (decodeU8 rest).map fun (a, r) => (.GetProperty a, r)
    | 31 => (decodeU8 rest).map fun (a, r) => (.SetProperty a, r)
    | 32 => (decodeU8 rest).map fun (a, r) => (.Method a, r)
    | 33 =>
      (decodeU8 rest).bind fun (a, r) =>
        (decodeU8 r).map fun (b, r2) => (.Invoke a b, r2)
    | 34 => some (.Inherit, rest)
    | 35 => (decodeU8 rest).map fun (a, r) => (.GetSuper a, r)
    | 36 =>
      (decodeU8 rest).bind fun (a, r) =>
        (decodeU8 r).map fun (b, r2) => (.SuperInvoke a b, r2)
    | _ => none

/-- Operand well-formedness: each operand fits its machine-integer type
(`u8` operands `< 256`, the `u16` jump offsets `< 65536`). -/
def wf : Instruction → Bool
  | .LoadConstant i | .DefineGlobal i | .GetGlobal i | .SetGlobal i
  | .GetLocal i | .SetLocal i | .Call i | .Closure i
  | .GetUpvalue i | .SetUpvalue i | .Class i
  | .GetProperty i | .SetProperty i | .Method i | .GetSuper i => i < 256
  | .JumpFwdIfFalse o | .JumpForward o | .JumpBack o => o < 65536
  | .Invoke i a | .SuperInvoke i a => i < 256 && a < 256
  | _ => true

end Instruction

/-- `Value` from `src/lox/src/opcodes.rs` lines 93-105, variants in
declaration order.  `Gc<LoxStr>` payloads are modelled by the interned
string's contents (interning makes identity equality coincide with byte
equality, and `check_equals` dereferences before comparing); the other
`Gc<...>` payloads are modelled as stable heap handles (`Nat`).
`Number` carries a `Float`, Lean's IEEE-754 double. -/
inductive Value where
  | Nil
  | Number (n : Float)
  | Boolean (b : Bool)
  | String (s : String)
  | Function (h : Nat)
  | NativeFunction (h : Nat)
  | Closure (h : Nat)
  | Class (h : Nat)
  | Instance (h : Nat)
  | BoundMethod (h : Nat)

namespace Value

/-- `mem::discriminant`: the declaration index of a `Value`'s variant. -/
def discriminant : Value → Nat
  | .Nil => 0
  | .Number _ => 1
  | .Boolean _ => 2
  | .String _ => 3
  | .Function _ => 4
  | .NativeFunction _ => 5
  | .Closure _ => 6
  | .Class _ => 7
  | .Instance _ => 8
  | .BoundMethod _ => 9

end Value

/-- `check_equals` from `src/lox/src/vm.rs` lines 606-618: values of
different discriminant compare unequal; `Nil`, `Boolean`, `Number` and
`String` compare by (dereferenced) value; every other same-discriminant
pair hits `panic!("unreachable")`, modelled as `none`. -/
def check_equals (lhs rhs : Value) : Option Bool :=
  if lhs.discriminant ≠ rhs.discriminant then
    some false
  else
    match lhs, rhs with
    | .Nil, .Nil => some true
    | .Boolean a, .Boolean b => some (a == b)
    | .Number a, .Number b => some (a == b)
    | .String a, .String b => some (a == b)
    | _, _ => none

/-- The `Instruction::Equal` arm of `Vm::run` (`src/lox/src/vm.rs` lines
144-151): peek the two topmost stack values (`rhs` on top), run
`check_equals`, pop both, push the `Boolean` result.  The head of the
list is the top of the stack; a `check_equals` panic (or an underflowing
stack, which would panic in `peek`) is `none`. -/
def execEqual (stack : List Value) : Option (List Value) :=
  match stack with
  | rhs :: lhs :: rest => (check_equals lhs rhs).map fun res => Value.Boolean res :: rest
  | _ => none

/-- `Chunk`'s constant pool from `src/lox/src/opcodes.rs` (the `values`
vector; `code` and `lines` are irrelevant to the constant-pool claims). -/
structure Chunk where
  values : List Value

/-- `Chunk::add_value` from `src/lox/src/opcodes.rs` lines 249-252: push
the value and return `(self.values.len() - 1) as u8` — the index of the
pushed value truncated to a byte. -/
def Chunk.add_value (c : Chunk) (v : Value) : Chunk × Nat :=
  ({ values := c.values ++ [v] }, c.values.length % 256)

/-- `Chunk::get_value` from `src/lox/src/opcodes.rs` lines 254-256. -/
def Chunk.get_value (c : Chunk) (idx : Nat) : Option Value :=
  c.values[idx]?

/-- `Compiler::make_constant` from `src/lox/src/compiler.rs` lines
191-204: call `add_value`, then report "Too many constants in one chunk."
and return index 0 if the returned `ConstantIndex` (a `u8`) exceeds
`u8::MAX`.  The returned `Bool` is whether the error was reported. -/
def make_constant (c : Chunk) (v : Value) : Chunk × Nat × Bool :=
  let (c2, constant_index) := c.add_value v
  if constant_index > 255 then
    (c2, 0, true)
  else
    (c2, constant_index, false)

/-- `LOCALS_MAX_CAPACITY` from `src/lox/src/compiler.rs` line 944:
`u8::MAX as usize`, i.e. 255. -/
def LOCALS_MAX_CAPACITY : Nat := 255

/-- The local-table state of `StackSim` (`src/lox/src/compiler.rs`): only
its size and the compile-error flag of the surrounding context matter for
the capacity claim.  `StackSim::new` pushes one reserved local (slot 0),
so a fresh function context starts at size 1. -/
structure LocalsState where
  size : Nat
  hadError : Bool

/-- A fresh `StackSim` (`StackSim::new`): one reserved slot-0 local, no
error. -/
def LocalsState.initial : LocalsState := ⟨1, false⟩

/-- `Compiler::add_local` from `src/lox/src/compiler.rs` lines 145-153:
if the table already holds `LOCALS_MAX_CAPACITY` locals, report "Too many
local variables in function." and return without pushing; else push. -/
def add_local (s : LocalsState) : LocalsState :=
  if s.size == LOCALS_MAX_CAPACITY then
    { s with hadError := true }
  else
    { s with size := s.size + 1 }

/-- The locals state after declaring `n` local variables in a fresh
function (each declaration reaches `add_local` once). -/
def declareLocals : Nat → LocalsState
  | 0 => LocalsState.initial
  | n + 1 => add_local (declareLocals n)

/-- `FRAMES_MIN_SIZE` from `src/lox/src/vm.rs` line 19: the callframe
capacity, 64. -/
def FRAMES_MIN_SIZE : Nat := 64

/-- Result of `Vm::call`: either the new callframe count, or the runtime
error message (`runtime_error` is invoked without pushing a frame). -/
inductive CallResult where
  | ok (frames : Nat)
  | err (msg : String)
  deriving DecidableEq, Repr

/-- `Vm::call` from `src/lox/src/vm.rs` lines 435-456: reject an argument
count different from the callee's arity, then raise "Stack overflow."
when the callframe stack already holds `FRAMES_MIN_SIZE` frames (before
pushing), else push the new frame. -/
def vmCall (arity argc frames : Nat) : CallResult :=
  if argc ≠ arity then
    .err s!"Expected {arity} arguments but got {argc}."
  else if frames == FRAMES_MIN_SIZE then
    .err "Stack overflow."
  else
    .ok (frames + 1)

/-- Callframe count after `n` nested calls of a 0-arity function: the VM
starts with the single top-level script frame
(`Vm::new` pushes one `CallFrame`), and each nested call goes through
`Vm::call` before the enclosing one returns. -/
def nestedCalls : Nat → CallResult
  | 0 => .ok 1
  | n + 1 =>
    match nestedCalls n with
    | .ok frames => vmCall 0 0 frames
    | .err m => .err m

/-- An entry of `Vm::open_upvalues` (`src/lox/src/vm.rs`), i.e. a
`Gc<Upvalue>` (`src/lox/src/object.rs` lines 83-109).  While open,
`value_ptr()` is the address of a live stack slot, modelled as the slot's
stack index (`target`; address order within the stack buffer equals index
order).  `Upvalue::close` copies the slot into the inline `value` field
and redirects `location` at that field, after which `value_ptr()` is a
heap address; that state is modelled by `closed = true`, and pointer
comparisons against closed entries (which in the source compare a heap
address with a stack address, a layout-dependent outcome) are outside the
model — the theorems below therefore hypothesise all-open lists. -/
structure UpvalueEnt where
  target : Nat
  closed : Bool
  deriving DecidableEq, Repr

/-- `Vm::capture_upvalue`'s reverse scan (`src/lox/src/vm.rs` lines
371-381) over `self.open_upvalues.iter().enumerate().rev()`, fed with the
reversed enumerated list: `.inl index` models the early `return *val`
(reuse of the existing upvalue at `index`), `.inr i` models falling
through to `insert(i, …)` (`insert_index` is `0` unless the scan breaks
at a smaller pointer). -/
def capture_scan : List (Nat × UpvalueEnt) → Nat → Nat ⊕ Nat
  | [], _ => .inr 0
  | (index, val) :: rest, p =>
    if val.target == p then .inl index
    else if val.target < p then .inr (index + 1)
    else capture_scan rest p

/-- `Vec::insert(i, x)`: shift-insert at position `i`. -/
def vecInsert (l : List UpvalueEnt) (i : Nat) (x : UpvalueEnt) : List UpvalueEnt :=
  l.take i ++ x :: l.drop i

/-- `Vm::capture_upvalue` from `src/lox/src/vm.rs` lines 370-386: scan the
open-upvalue list from the back; reuse an entry whose pointer equals the
captured slot, otherwise allocate a fresh open upvalue and insert it at
the computed position.  The returned list is the new `open_upvalues`. -/
def capture_upvalue (l : List UpvalueEnt) (p : Nat) : List UpvalueEnt :=
  match capture_scan l.enum.reverse p with
  | .inl _ => l
  | .inr insert_index => vecInsert l insert_index ⟨p, false⟩

/-- The `new_size` computed by the loop of `Vm::close_upvalues`
(`src/lox/src/vm.rs` lines 358-365): a fold over
`open_upvalues.iter_mut().enumerate().rev()` starting from the list's
length; entries whose pointer is at or above the threshold are closed
(no change to `new_size`), every other entry overwrites `new_size` with
its index + 1. -/
def close_new_size (l : List UpvalueEnt) (t : Nat) : Nat :=
  l.enum.reverse.foldl (fun ns ie => if t ≤ ie.2.target then ns else ie.1 + 1) l.length

/-- `Vm::close_upvalues` from `src/lox/src/vm.rs` lines 356-368: one pass
closes every entry whose pointer is at or above `&stack[stack_in]`
(threshold `t`, a stack index) and computes `new_size`; then
`truncate(new_size)`.  Each entry's pointer is read once, before that
entry is possibly closed, so mapping and the `new_size` fold over the
pre-pass targets is faithful. -/
def close_upvalues (l : List UpvalueEnt) (t : Nat) : List UpvalueEnt :=
  (l.map fun e => if t ≤ e.target then { e with closed := true } else e).take
    (close_new_size l t)

/-- Strict ascending order of targets along the list (start of the list =
lowest stack address). -/
def targetsAscending (l : List UpvalueEnt) : Prop :=
  l.Pairwise fun a b => a.target < b.target

/-- Every entry of the list is an open upvalue. -/
def allOpen (l : List UpvalueEnt) : Prop := ∀ e ∈ l, e.closed = false

/-- The entries of the list that are open upvalues. -/
def openEntries (l : List UpvalueEnt) : List UpvalueEnt :=
  l.filter fun e => !e.closed

/-- Strict descending order of targets along the list (the order asserted
by the claim). -/
def targetsDescending (l : List UpvalueEnt) : Prop :=
  l.Pairwise fun a b => b.target < a.target

/-- A heap-owned object header as the sweep phase sees it
(`src/lox/src/heap.rs`): the mark bit, the `bytes_allocated()` size, and
the stable address of its `Obj` box (`id`), which is the object's handle. -/
structure HeapObjM where
  marked : Bool
  size : Nat
  id : Nat

/-- The `Heap` fields that `sweep_heap` touches (`src/lox/src/heap.rs`
lines 14-20): the object list, the intern table (string contents keyed),
`bytes_allocated` and `next_gc`. -/
structure HeapState where
  objects : List HeapObjM
  interned : List (String × HeapObjM)
  bytes_allocated : Nat
  next_gc : Nat

/-- `INITIAL_NEXT_GC` from `src/lox/src/heap.rs` line 12. -/
def INITIAL_NEXT_GC : Nat := 1024 * 1024

/-- `GC_HEAP_GROWTH_FACTOR` from `src/lox/src/heap.rs` line 11. -/
def GC_HEAP_GROWTH_FACTOR : Nat := 2

/-- Sum of `bytes_allocated()` over a list of heap objects (the
accumulating loops of `sweep_heap`). -/
def sumSizes (l : List HeapObjM) : Nat := l.foldl (fun acc o => acc + o.size) 0

/-- Sum of `bytes_allocated()` over the intern table. -/
def sumSizesInterned (l : List (String × HeapObjM)) : Nat :=
  l.foldl (fun acc kv => acc + kv.2.size) 0

/-- `Heap::sweep_heap` from `src/lox/src/heap.rs` lines 109-132: retain
marked objects, clear their mark bits while summing their sizes; retain
marked intern-table entries, clear and sum likewise; replace
`bytes_allocated` with `strs_size + objects_size`. -/
def sweep_heap (h : HeapState) : HeapState :=
  let objects := (h.objects.filter fun o => o.marked).map fun o => { o with marked := false }
  let objects_size := sumSizes objects
  let interned :=
    (h.interned.filter fun kv => kv.2.marked).map fun kv => (kv.1, { kv.2 with marked := false })
  let strs_size := sumSizesInterned interned
  { h with objects := objects, interned := interned,
           bytes_allocated := strs_size + objects_size }

/-- `Heap::collect_garbage` from `src/lox/src/heap.rs` lines 45-71 after
the mark phase: the argument is the heap state `mark_heap` produced (mark
bits set on exactly the objects reachable from the VM roots; the sweep
postconditions below hold for every marking, so the marking itself is
left abstract).  Sweep, then set
`next_gc = max(INITIAL_NEXT_GC, bytes_allocated * GC_HEAP_GROWTH_FACTOR)`. -/
def collect_garbage (markedHeap : HeapState) : HeapState :=
  let h := sweep_heap markedHeap
  { h with next_gc := max INITIAL_NEXT_GC (h.bytes_allocated * GC_HEAP_GROWTH_FACTOR) }

/-- A small post-mark heap used to instantiate the sweep postconditions:
two heap objects (one marked) and two interned strings (one marked). -/
def hExample : HeapState :=
  { objects := [⟨true, 10, 0⟩, ⟨false, 20, 1⟩],
    interned := [("init", ⟨true, 5, 2⟩), ("tmp", ⟨false, 6, 3⟩)],
    bytes_allocated := 41,
    next_gc := 1048576 }

/-- A class's method table (`LoxClass::methods`,
`src/lox/src/object.rs`): `method name → closure handle`, modelled as an
association list observed only through `tableLookup`. -/
abbrev MethodTable : Type := List (String × Nat)

/-- `HashMap::get` on a method table: the entry of the key, if present. -/
def tableLookup : MethodTable → String → Option Nat
  | [], _ => none
  | (k, v) :: rest, key => if k == key then some v else tableLookup rest key

/-- `HashMap::insert` on a method table, observationally: the key maps to
the new value, every other key is unchanged. -/
def tableInsert (t : MethodTable) (k : String) (v : Nat) : MethodTable :=
  (k, v) :: List.filter (fun p => !(p.1 == k)) t

/-- Copying all entries of `src` into `dst`
(`tableAddAll`-style iteration: insert each entry of `src`). -/
def tableAddAll (src dst : MethodTable) : MethodTable :=
  src.foldl (fun acc p => tableInsert acc p.1 p.2) dst

/-- `LoxClass` from `src/lox/src/object.rs` lines 167-170. -/
structure ClassObj where
  name : String
  methods : MethodTable

/-- Modelled from the spec: the `Inherit` arm of `Vm::run` is absent from
`src/lox/src/vm.rs` (the `match instr` of `run`, lines 107-345, has no
arm for `Instruction::Inherit` although the opcode is declared in
`src/lox/src/opcodes.rs` and emitted by
`Compiler::class_declaration`).  Spec §4.4: "copy all entries of the
superclass's method table into the subclass's"; "superclass remains on
stack as the synthetic `super` local".  The stack layout follows the
compiler's emission order (`src/lox/src/compiler.rs` lines 573-592:
the superclass is loaded first, the subclass second), so the subclass is
on top and is the value popped, leaving the superclass in the `super`
slot.  Class handles are indices into the class heap `classes`; a
non-class operand or dangling handle is `none` (runtime panic). -/
def execInherit (classes : List ClassObj) (stack : List Value) :
    Option (List ClassObj × List Value) :=
  match stack with
  | .Class subH :: .Class supH :: rest =>
    match classes[subH]?, classes[supH]? with
    | some sub, some sup =>
      some (classes.set subH { sub with methods := tableAddAll sup.methods sub.methods },
            .Class supH :: rest)
    | _, _ => none
  | _ => none

/-- The compiler state threaded through the `class_declaration` slice
below: the scope depth and local table of the current `StackSim`
(locals as `(name, depth)` pairs; `captured` never matters here), the
chunk's constant pool, the emitted instructions, and the error flag. -/
structure CDecl where
  scopeDepth : Int
  locals : List (String × Int)
  chunk : Chunk
  code : List Instruction
  hadError : Bool

/-- The top-level script context: `StackSim::new("")` reserves slot 0
with an empty name at depth 0 (`src/lox/src/compiler.rs` lines 947-961). -/
def CDecl.initial : CDecl :=
  { scopeDepth := 0, locals := [("", 0)], chunk := ⟨[]⟩, code := [], hadError := false }

/-- `Compiler::emit_instruction` (appends to the current chunk's code). -/
def CDecl.emit (s : CDecl) (i : Instruction) : CDecl :=
  { s with code := s.code ++ [i] }

/-- `Compiler::make_identifier_from_name` (`src/lox/src/compiler.rs`
lines 687-690): intern the name and add it to the constant pool via
`make_constant` (interning is modelled by storing the contents; no
constant deduplication happens in the source). -/
def CDecl.make_identifier_from_name (s : CDecl) (name : String) : CDecl × Nat :=
  let (c2, idx, err) := make_constant s.chunk (.String name)
  ({ s with chunk := c2, hadError := s.hadError || err }, idx)

/-- `CompilerContext::resolve_local` (`src/lox/src/compiler.rs` lines
1082-1097): scan the locals from the top; on a name match return its
index as a `u8` (flagging the depth `-1` own-initializer error). -/
def CDecl.resolve_local (s : CDecl) (name : String) : CDecl × Option Nat :=
  match s.locals.enum.reverse.find? (fun ie => ie.2.1 == name) with
  | some (i, local_) =>
    (if local_.2 == -1 then { s with hadError := true } else s, some (i % 256))
  | none => (s, none)

/-- `Compiler::named_variable` (`src/lox/src/compiler.rs` lines 399-429)
specialised to the calls in `class_declaration`: `assign` is `false` and
the token after the name is `{`/`<` (never `=`), so the emitted
instruction is the `get_op`; the current context is the top-level one
(`ctx_stk.len() - 1 = 0`), for which `resolve_upvalue` returns `None`,
so an unresolved name becomes a global access. -/
def CDecl.named_variable_get (s : CDecl) (name : String) : CDecl :=
  match s.resolve_local name with
  | (s1, some arg) => s1.emit (.GetLocal arg)
  | (s1, none) =>
    let (s2, idx) := s1.make_identifier_from_name name
    s2.emit (.GetGlobal idx)

/-- `StackSim::mark_initialized` (`src/lox/src/compiler.rs` lines
967-974): set the depth of the most recent local to the current scope
depth (no-op at scope depth 0). -/
def CDecl.mark_initialized (s : CDecl) : CDecl :=
  if s.scopeDepth == 0 then s
  else
    { s with
      locals := s.locals.take (s.locals.length - 1) ++
        (s.locals.getLast?.map fun l => (l.1, s.scopeDepth)).toList }

/-- `Compiler::class_declaration` (`src/lox/src/compiler.rs` lines
562-592) up to and including the `Inherit` emission, for a class with a
superclass declared at the top level (scope depth 0, so
`declare_variable` is a no-op and `define_variable` emits
`DefineGlobal`): make the class-name constant, emit `Class` and
`DefineGlobal`, begin the superclass scope, add and initialise the
synthetic `super` local, load the superclass (`variable(false)` with
`tin.pre` = the superclass name), load the subclass by name, and emit
`Inherit`. -/
def class_decl_to_inherit (className superName : String) : CDecl :=
  let s0 := CDecl.initial
  let (s1, classIdx) := s0.make_identifier_from_name className
  let s2 := s1.emit (.Class classIdx)
  let s3 := s2.emit (.DefineGlobal classIdx)
  let s4 := { s3 with scopeDepth := s3.scopeDepth + 1 }
  let s5 := { s4 with locals := s4.locals ++ [("super", -1)] }
  let s6 := s5.mark_initialized
  let s7 := s6.named_variable_get superName
  let s8 := s7.named_variable_get className
  s8.emit .Inherit

/-- `HashMap::get` on the VM globals (`src/lox/src/vm.rs`),
observationally on an association list whose most recent insertion is in
front. -/
def lookupGlobal : List (String × Value) → String → Option Value
  | [], _ => none
  | (k, v) :: rest, key => if k == key then some v else lookupGlobal rest key

/-- The `Vm::run` arms that execute between the start of the compiled
class declaration and its `Inherit` instruction
(`src/lox/src/vm.rs`: `Class` lines 283-287, `DefineGlobal` lines 180-184,
`GetGlobal` lines 194-201), stopping at `Inherit` and returning the
machine state at its dispatch.  `Class` allocates a fresh `LoxClass`
(handle = next index of the class heap) and pushes it; `DefineGlobal`
pops into the globals; `GetGlobal` pushes the named global.  The head of
the stack list is the top of the stack. -/
def runToInherit (ch : Chunk) :
    List (String × Value) → List ClassObj → List Instruction → List Value →
    Option (List ClassObj × List (String × Value) × List Value)
  | _, _, [], _ => none
  | globals, classes, .Inherit :: _, stack => some (classes, globals, stack)
  | globals, classes, .Class idx :: rest, stack =>
    match ch.get_value idx with
    | some (.String name) =>
      runToInherit ch globals (classes ++ [⟨name, []⟩]) rest
        (Value.Class classes.length :: stack)
    | _ => none
  | globals, classes, .DefineGlobal idx :: rest, stack =>
    match ch.get_value idx, stack with
    | some (.String name), v :: stackRest =>
      runToInherit ch ((name, v) :: globals) classes rest stackRest
    | _, _ => none
  | globals, classes, .GetGlobal idx :: rest, stack =>
    match ch.get_value idx with
    | some (.String name) =>
      match lookupGlobal globals name with
      | some v => runToInherit ch globals classes rest (v :: stack)
      | none => none
    | _ => none
  | _, _, _, _ => none

/-- The stack layout asserted by the claim for a state dispatching
`Inherit`: the subclass sits below the superclass (superclass on top). -/
def subBelowSuper (stack : List Value) (subH supH : Nat) : Prop :=
  stack[0]? = some (Value.Class supH) ∧ stack[1]? = some (Value.Class subH)

/-! ## Theorems -/

/-- C3: `Precedence::next_greater` does **not** return the immediately
following level for `Factor`: the `Factor => Term` arm
(`src/lox/src/precedence.rs` line 48) returns `Term`, a strictly *lower*
level than `Factor` (the immediately following level would be `Unary`).
Consequently `Compiler::binary` parses the right operand of a `Factor`
operator (`*`, `/`) with minimum precedence `Term`, which is *not*
strictly above the operator's own level. -/
theorem c3_next_greater_factor_bug :
    Precedence.next_greater .Factor = some .Term ∧
    Precedence.blt .Term .Factor = true ∧
    Precedence.next_greater .Factor ≠ some .Unary ∧
    (parse_rule .Star).curr_prec = .Factor ∧
    binary_rhs_min .Star = some .Term ∧
    Precedence.ble .Term .Factor = true := by
  decide

/-- C4: the can-assign flag computed by `Compiler::parse_precedence` is
`parse_rule(current token).curr_prec <= Assignment` — a function of the
current token only, not of the `min` argument.  For an identifier prefix
the rule precedence is `None`, so the flag is `true` even when `min` is
above `Assignment` (e.g. `min = Unary`), contradicting the claimed
`min ≤ Assignment`. -/
theorem c4_can_assign_ignores_min_bound :
    (parse_rule .Identifier).prefixFn = some .variable ∧
    parse_precedence_can_assign .Identifier = true ∧
    Precedence.ble .Unary .Assignment = false ∧
    Precedence.ble .Term .Assignment = false := by
  decide

set_option maxRecDepth 40000 in
/-- C5: the "Too many constants in one chunk." guard of
`Compiler::make_constant` is dead code: `Chunk::add_value` already
truncates the index to a `u8` (`(values.len() - 1) as u8`), so the
comparison `constant_index > u8::MAX` is always false.  Adding a
constant to a chunk whose pool already holds 256 values therefore
reports no error, grows the pool to 257 entries, and returns index 0 —
which indexes the pool's first constant, not the one just added. -/
theorem c5_constant_pool_overflow_unchecked :
    (∀ c v, (make_constant c v).2.2 = false) ∧
    (make_constant ⟨List.replicate 256 .Nil⟩ (.Boolean true)).1.values.length = 257 ∧
    (make_constant ⟨List.replicate 256 .Nil⟩ (.Boolean true)).2.1 = 0 ∧
    (make_constant ⟨List.replicate 256 .Nil⟩ (.Boolean true)).1.get_value 0 = some .Nil ∧
    Value.Nil ≠ Value.Boolean true := by
  refine ⟨?_, ?_, ?_, ?_, ?_⟩
  · intro c v
    simp only [make_constant, Chunk.add_value]
    rw [if_neg (by omega : ¬ c.values.length % 256 > 255)]
  · rfl
  · rfl
  · rfl
  · exact fun h => Value.noConfusion h

set_option maxRecDepth 40000 in
/-- C6 (counterexample): a function declaring 256 local variables does
*not* compile without error — `add_local` reports "Too many local
variables in function." as soon as the table (which already holds the
reserved slot-0 local) reaches `LOCALS_MAX_CAPACITY = u8::MAX = 255`
entries, which happens at the 255th declaration. -/
theorem c6_counterexample_256_locals_error :
    (declareLocals 256).hadError = true := by
  decide

set_option maxRecDepth 40000 in
/-- C6 (amended): with `LOCALS_MAX_CAPACITY = 255` and slot 0 reserved, a
function containing 254 declared locals compiles without error (table
size 255); declaring a 255th produces "Too many local variables in
function." and does not grow the table, whose size never exceeds 255. -/
theorem c6_locals_capacity :
    (declareLocals 254).hadError = false ∧
    (declareLocals 254).size = 255 ∧
    (declareLocals 255).hadError = true ∧
    (declareLocals 255).size = 255 ∧
    ∀ n, (declareLocals n).size ≤ 255 := by
  refine ⟨by decide, by decide, by decide, by decide, ?_⟩
  intro n
  induction n with
  | zero => simp [declareLocals, LocalsState.initial]
  | succ n ih =>
    simp only [declareLocals, add_local, LOCALS_MAX_CAPACITY]
    by_cases h : (declareLocals n).size = 255
    · simp [h]
    · simp only [beq_iff_eq, h, if_false]
      omega

/-- C7 (counterexample): the 64th nested function call does *not*
execute: `Vm::call` raises "Stack overflow." when the callframe stack
already holds `FRAMES_MIN_SIZE = 64` frames, and the top-level script
occupies one frame, so the 64th nested call finds 64 frames. -/
theorem c7_counterexample_64th_call_overflows :
    nestedCalls 64 = .err "Stack overflow." := by
  decide

/-- C7 (amended): counting the top-level script frame, the callframe
stack holds at most 64 frames: 63 nested calls execute successfully
(reaching 64 frames) and the 64th raises the runtime error
"Stack overflow." without pushing a new callframe (`Vm::call` returns
before the push). -/
theorem c7_frames_limit :
    (∀ n, n ≤ 63 → nestedCalls n = .ok (n + 1)) ∧
    nestedCalls 64 = .err "Stack overflow." ∧
    vmCall 0 0 64 = .err "Stack overflow." := by
  refine ⟨?_, by decide, by decide⟩
  intro n h
  induction n with
  | zero => rfl
  | succ n ih =>
    have h' : n ≤ 63 := by omega
    simp [nestedCalls, ih h', vmCall, FRAMES_MIN_SIZE]
    omega

/-- C7 (witness): 40 nested calls execute, reaching 41 frames. -/
theorem c7_frames_limit_witness : nestedCalls 40 = .ok 41 :=
  c7_frames_limit.1 40 (by omega)

/-- C10: executing `Equal` on two operands of the same discriminant that
is neither `Nil`, `Boolean`, `Number` nor `String` (discriminants ≥ 4:
functions, natives, closures, classes, instances, bound methods) hits
the `panic!("unreachable")` arm of `check_equals`, so the VM aborts
instead of pushing a `Boolean` result. -/
theorem c10_check_equals_panics (lhs rhs : Value)
    (hsame : lhs.discriminant = rhs.discriminant)
    (hother : 4 ≤ lhs.discriminant) :
    check_equals lhs rhs = none ∧ ∀ rest, execEqual (rhs :: lhs :: rest) = none := by
  cases lhs <;> cases rhs <;>
    simp_all [Value.discriminant, check_equals, execEqual]

/-- C10 (witness): two distinct classes. -/
theorem c10_check_equals_panics_witness :
    check_equals (Value.Class 1) (Value.Class 2) = none ∧
    ∀ rest, execEqual (Value.Class 2 :: Value.Class 1 :: rest) = none :=
  c10_check_equals_panics (Value.Class 1) (Value.Class 2) rfl (by decide)

/-- C9: encoding any instruction (operands within their machine-integer
ranges) and decoding from the concatenation with any trailing bytes
returns the identical instruction with identical operands and exactly
the trailing bytes. -/
theorem c9_codec_roundtrip (i : Instruction) (rest : List Nat) (h : i.wf = true) :
    Instruction.decode (i.encode ++ rest) = some (i, rest) := by
  cases i <;>
    simp_all [Instruction.encode, Instruction.decode, Instruction.encodeU8,
      Instruction.encodeU16, Instruction.decodeU8, Instruction.decodeU16,
      Instruction.wf] <;>
    omega

/-- The reverse scan of `capture_upvalue` on a strictly-ascending list:
either it early-returns an existing entry (`.inl`), in which case some
entry already targets `p`, or it falls through to an insertion at the
number of entries whose target is below `p`, in which case no entry
targets `p`. -/
theorem capture_scan_spec (l : List UpvalueEnt) (p : Nat) (hasc : targetsAscending l) :
    ((∃ i, capture_scan l.enum.reverse p = .inl i) ∧ ∃ e ∈ l, e.target = p) ∨
    (capture_scan l.enum.reverse p = .inr (l.countP fun e => e.target < p) ∧
      ∀ e ∈ l, e.target ≠ p) := by
  induction l using List.reverseRecOn with
  | nil => right; simp [capture_scan]
  | append_singleton l a ih =>
    rw [targetsAscending, List.pairwise_append] at hasc
    obtain ⟨hl, -, hcross⟩ := hasc
    have henum : (l ++ [a]).enum.reverse = (l.length, a) :: l.enum.reverse := by
      simp [List.enum_append]
    rw [henum]
    by_cases heq : a.target = p
    · left
      refine ⟨⟨l.length, ?_⟩, a, by simp, heq⟩
      simp [capture_scan, heq]
    · by_cases hlt : a.target < p
      · right
        constructor
        · have hfull : l.countP (fun e => e.target < p) = l.length := by
            refine List.countP_eq_length.mpr fun e he => ?_
            have := hcross e he a (by simp)
            simp only [decide_eq_true_eq]
            omega
          simp [capture_scan, heq, hlt, List.countP_append, hfull]
        · intro e he
          rcases List.mem_append.mp he with h | h
          · have := hcross e h a (by simp); omega
          · simp only [List.mem_singleton] at h; subst h; exact heq
      · have step : capture_scan ((l.length, a) :: l.enum.reverse) p =
            capture_scan l.enum.reverse p := by
          simp [capture_scan, heq, hlt]
        rcases ih hl with ⟨⟨i, hi⟩, e, he, hep⟩ | ⟨hscan, hne⟩
        · exact Or.inl ⟨⟨i, by rw [step]; exact hi⟩, e, List.mem_append.mpr (Or.inl he), hep⟩
        · right
          refine ⟨?_, ?_⟩
          · rw [step, hscan, List.countP_append]
            have : List.countP (fun e => decide (e.target < p)) [a] = 0 := by
              simp [hlt]
            rw [this, Nat.add_zero]
          · intro e he
            rcases List.mem_append.mp he with h | h
            · exact hne e h
            · simp only [List.mem_singleton] at h; subst h; exact heq

/-- On a strictly-ascending list, the entries whose target is below `p`
are exactly the prefix of length `countP (target < p)`. -/
theorem countP_take_drop (l : List UpvalueEnt) (p : Nat) (hasc : targetsAscending l) :
    (∀ a ∈ l.take (l.countP fun e => e.target < p), a.target < p) ∧
    (∀ b ∈ l.drop (l.countP fun e => e.target < p), p ≤ b.target) := by
  induction l with
  | nil => simp
  | cons e l' ih =>
    rw [targetsAscending, List.pairwise_cons] at hasc
    obtain ⟨he, hl'⟩ := hasc
    obtain ⟨ih1, ih2⟩ := ih hl'
    by_cases hp : e.target < p
    · rw [List.countP_cons_of_pos _ _ (by simpa using hp)]
      rw [List.take_succ_cons, List.drop_succ_cons]
      refine ⟨fun a ha => ?_, ih2⟩
      rcases List.mem_cons.mp ha with rfl | ha'
      · exact hp
      · exact ih1 a ha'
    · have hzero : l'.countP (fun e => decide (e.target < p)) = 0 := by
        refine List.countP_eq_zero.mpr fun b hb => ?_
        have := he b hb
        simp only [decide_eq_true_eq]
        omega
      rw [List.countP_cons_of_neg _ _ (by simpa using hp), hzero]
      refine ⟨by simp, fun b hb => ?_⟩
      rcases List.mem_cons.mp hb with rfl | hb'
      · omega
      · have := he b hb'
        omega

/-- Inserting a fresh open upvalue for an uncaptured slot at the position
`capture_upvalue` computes keeps the list strictly ascending and
all-open, and makes the slot captured. -/
theorem capture_insert_spec (l : List UpvalueEnt) (p : Nat)
    (hasc : targetsAscending l) (hopen : allOpen l) (hne : ∀ e ∈ l, e.target ≠ p) :
    targetsAscending (vecInsert l (l.countP fun e => e.target < p) ⟨p, false⟩) ∧
    allOpen (vecInsert l (l.countP fun e => e.target < p) ⟨p, false⟩) ∧
    (⟨p, false⟩ : UpvalueEnt) ∈ vecInsert l (l.countP fun e => e.target < p) ⟨p, false⟩ := by
  obtain ⟨htake, hdrop⟩ := countP_take_drop l p hasc
  have hsplit := List.take_append_drop (l.countP fun e => e.target < p) l
  have hpair : List.Pairwise (fun a b : UpvalueEnt => a.target < b.target)
      ((l.take (l.countP fun e => e.target < p)) ++ l.drop (l.countP fun e => e.target < p)) := by
    rw [hsplit]; exact hasc
  rw [List.pairwise_append] at hpair
  obtain ⟨hpt, hpd, hcross⟩ := hpair
  refine ⟨?_, ?_, ?_⟩
  · rw [targetsAscending, vecInsert, List.pairwise_append]
    refine ⟨hpt, ?_, ?_⟩
    · rw [List.pairwise_cons]
      refine ⟨fun b hb => ?_, hpd⟩
      have h1 := hdrop b hb
      have h2 := hne b ((List.drop_subset _ l) hb)
      simp only []
      omega
    · intro x hx b hb
      rcases List.mem_cons.mp hb with rfl | hb'
      · simpa using htake x hx
      · exact hcross x hx b hb'
  · intro e he
    rw [vecInsert] at he
    rcases List.mem_append.mp he with h | h
    · exact hopen e ((List.take_subset _ l) h)
    · rcases List.mem_cons.mp h with rfl | h'
      · rfl
      · exact hopen e ((List.drop_subset _ l) h')
  · exact List.mem_append.mpr (Or.inr (List.mem_cons_self _ _))

/-- The `new_size` fold of `close_upvalues` over entries that are all at
or above the threshold never overwrites the initial value. -/
theorem close_fold_all_ge (t : Nat) (l : List UpvalueEnt) (init : Nat)
    (h : ∀ e ∈ l, t ≤ e.target) (n : Nat) :
    (List.enumFrom n l).foldr
      (fun x y => if t ≤ x.2.target then y else x.1 + 1) init = init := by
  induction l generalizing n with
  | nil => simp
  | cons e l' ih =>
    rw [List.enumFrom_cons, List.foldr_cons,
      ih (fun x hx => h x (List.mem_cons_of_mem _ hx)) (n + 1),
      if_pos (h e (List.mem_cons_self _ _))]

/-- `close_upvalues`' `new_size` when the first (lowest) entry is below
the threshold: the reverse loop's final `else` assignment comes from
index 0, so `new_size = 1`. -/
theorem close_new_size_head_lt (e : UpvalueEnt) (l : List UpvalueEnt) (t : Nat)
    (h : e.target < t) :
    close_new_size (e :: l) t = 1 := by
  rw [close_new_size, List.foldl_reverse]
  rw [show (e :: l).enum = (0, e) :: List.enumFrom 1 l from rfl]
  rw [List.foldr_cons, if_neg (show ¬ t ≤ e.target by omega)]

/-- `close_upvalues`' `new_size` when every entry is at or above the
threshold: the `else` branch never runs, so `new_size` stays the list's
length and `truncate` keeps everything. -/
theorem close_new_size_all_ge (l : List UpvalueEnt) (t : Nat)
    (h : ∀ e ∈ l, t ≤ e.target) :
    close_new_size l t = l.length := by
  rw [close_new_size, List.foldl_reverse]
  rw [show l.enum = List.enumFrom 0 l from rfl]
  exact close_fold_all_ge t l l.length h 0

/-- Targets strictly ascending implies pairwise-distinct targets. -/
theorem ascending_targets_nodup (l : List UpvalueEnt) (h : targetsAscending l) :
    (l.map fun e => e.target).Nodup := by
  rw [List.Nodup, List.pairwise_map]
  exact h.imp fun hab => by omega

/-- C2 (counterexample): capturing stack slot 3 and then stack slot 5
(the capture order of `Closure` executing the upvalue descriptors of an
inner function that captures two locals, lower slot first) starting from
the VM's initial empty open-upvalue list yields the list
`[target 3, target 5]`, which is *not* sorted by target stack address in
descending order — `capture_upvalue`'s insertion scan maintains the
ascending order instead. -/
theorem c2_counterexample_list_is_not_descending :
    capture_upvalue (capture_upvalue [] 3) 5 =
      [{ target := 3, closed := false }, { target := 5, closed := false }] ∧
    ¬ targetsDescending (capture_upvalue (capture_upvalue [] 3) 5) := by
  refine ⟨by decide, fun h => ?_⟩
  rw [show capture_upvalue (capture_upvalue [] 3) 5 =
      [{ target := 3, closed := false }, { target := 5, closed := false }] from by decide] at h
  rw [targetsDescending, List.pairwise_cons] at h
  have := h.1 { target := 5, closed := false } (List.mem_cons_self _ _)
  simp at this

/-- C2 (amended): on an open-upvalue list whose entries are all open and
strictly sorted by target stack address in **ascending** order (the order
the code maintains; the claim said descending), `capture_upvalue`
preserves ascending order, openness and target-distinctness and captures
the requested slot, and after `close_upvalues` the entries that remain
open are strictly ascending with pairwise-distinct targets, all strictly
below the close threshold.  (Entries closed by `close_upvalues` can
linger in the list — its truncation misses them when no entry lies below
the threshold — but their pointers no longer point to stack slots.) -/
theorem c2_open_upvalue_list_sorted (l : List UpvalueEnt) (p t : Nat)
    (hasc : targetsAscending l) (hopen : allOpen l) :
    (targetsAscending (capture_upvalue l p) ∧ allOpen (capture_upvalue l p) ∧
      ((capture_upvalue l p).map fun e => e.target).Nodup ∧
      ∃ e ∈ capture_upvalue l p, e.target = p) ∧
    (targetsAscending (openEntries (close_upvalues l t)) ∧
      ((openEntries (close_upvalues l t)).map fun e => e.target).Nodup ∧
      ∀ e ∈ openEntries (close_upvalues l t), e.target < t) := by
  constructor
  · rcases capture_scan_spec l p hasc with ⟨⟨i, hi⟩, e, he, hep⟩ | ⟨hscan, hne⟩
    · rw [capture_upvalue, hi]
      exact ⟨hasc, hopen, ascending_targets_nodup l hasc, e, he, hep⟩
    · rw [capture_upvalue, hscan]
      obtain ⟨h1, h2, h3⟩ := capture_insert_spec l p hasc hopen hne
      exact ⟨h1, h2, ascending_targets_nodup _ h1, ⟨p, false⟩, h3, rfl⟩
  · have hmain : targetsAscending (openEntries (close_upvalues l t)) ∧
        ∀ e ∈ openEntries (close_upvalues l t), e.target < t := by
      cases l with
      | nil =>
        refine ⟨?_, by simp [close_upvalues, close_new_size, openEntries]⟩
        simp [close_upvalues, close_new_size, openEntries, targetsAscending]
      | cons e l' =>
        by_cases hlt : e.target < t
        · rw [close_upvalues, close_new_size_head_lt e l' t hlt]
          have hfe : (if t ≤ e.target then { e with closed := true } else e) = e :=
            if_neg (by omega)
          rw [List.map_cons, List.take_succ_cons, List.take_zero, hfe]
          have hsingle : openEntries [e] = [e] := by
            simp [openEntries, hopen e (List.mem_cons_self _ _)]
          rw [hsingle]
          refine ⟨List.pairwise_singleton _ _, fun x hx => ?_⟩
          rcases List.mem_singleton.mp hx with rfl
          exact hlt
        · have hall : ∀ x ∈ e :: l', t ≤ x.target := by
            intro x hx
            rcases List.mem_cons.mp hx with rfl | hx'
            · omega
            · rw [targetsAscending, List.pairwise_cons] at hasc
              have := hasc.1 x hx'
              omega
          rw [close_upvalues, close_new_size_all_ge _ _ hall,
            List.take_of_length_le (by simp)]
          have hnil : openEntries ((e :: l').map fun x =>
              if t ≤ x.target then { x with closed := true } else x) = [] := by
            rw [openEntries, List.filter_eq_nil_iff]
            intro x hx
            rw [List.mem_map] at hx
            obtain ⟨y, hy, rfl⟩ := hx
            rw [if_pos (hall y hy)]
            simp
          rw [hnil]
          exact ⟨List.Pairwise.nil, by simp⟩
    exact ⟨hmain.1, ascending_targets_nodup _ hmain.1, hmain.2⟩

/-- `tableInsert` makes the inserted key map to the inserted value. -/
theorem tableLookup_insert_self (t : MethodTable) (k : String) (v : Nat) :
    tableLookup (tableInsert t k v) k = some v := by
  simp [tableInsert, tableLookup]

/-- Filtering out a key leaves lookups of other keys unchanged. -/
theorem tableLookup_filter_ne (t : MethodTable) (k key : String) (hne : key ≠ k) :
    tableLookup (List.filter (fun p => !(p.1 == k)) t) key = tableLookup t key := by
  induction t with
  | nil => rfl
  | cons p rest ih =>
    obtain ⟨pk, pv⟩ := p
    by_cases hp : pk = k
    · rw [List.filter_cons_of_neg (by simp [hp]), ih]
      have : tableLookup ((pk, pv) :: rest) key =
          if pk == key then some pv else tableLookup rest key := rfl
      rw [this, if_neg (by simp [hp]; exact fun h => hne h.symm)]
    · rw [List.filter_cons_of_pos (by simp [hp])]
      have h1 : tableLookup ((pk, pv) ::
          List.filter (fun p => !(p.1 == k)) rest) key =
          if pk == key then some pv
          else tableLookup (List.filter (fun p => !(p.1 == k)) rest) key := rfl
      have h2 : tableLookup ((pk, pv) :: rest) key =
          if pk == key then some pv else tableLookup rest key := rfl
      rw [h1, h2, ih]

/-- `tableInsert` leaves lookups of other keys unchanged. -/
theorem tableLookup_insert_other (t : MethodTable) (k key : String) (v : Nat)
    (hne : key ≠ k) :
    tableLookup (tableInsert t k v) key = tableLookup t key := by
  rw [tableInsert]
  have : tableLookup ((k, v) :: List.filter (fun p => !(p.1 == k)) t) key =
      if k == key then some v
      else tableLookup (List.filter (fun p => !(p.1 == k)) t) key := rfl
  rw [this, if_neg (by simp; exact fun h => hne h.symm), tableLookup_filter_ne t k key hne]

/-- Copying a table none of whose keys is `k` leaves lookups of `k`
unchanged. -/
theorem tableLookup_addAll_not_mem (src : MethodTable) (k : String)
    (hk : ∀ p ∈ src, p.1 ≠ k) (dst : MethodTable) :
    tableLookup (tableAddAll src dst) k = tableLookup dst k := by
  induction src generalizing dst with
  | nil => rfl
  | cons p rest ih =>
    rw [tableAddAll, List.foldl_cons]
    have hrest : List.foldl (fun acc q => tableInsert acc q.1 q.2)
        (tableInsert dst p.1 p.2) rest =
        tableAddAll rest (tableInsert dst p.1 p.2) := rfl
    rw [hrest, ih (fun q hq => hk q (List.mem_cons_of_mem _ hq)),
      tableLookup_insert_other _ _ _ _ fun h => hk p (List.mem_cons_self _ _) h.symm]

/-- Copying all entries of `src` (distinct keys, as a hash map yields
them) into `dst` makes every key of `src` resolve to its `src` value. -/
theorem tableLookup_addAll (src : MethodTable) (k : String) (v : Nat)
    (hnodup : (src.map Prod.fst).Nodup) (hfind : tableLookup src k = some v)
    (dst : MethodTable) :
    tableLookup (tableAddAll src dst) k = some v := by
  induction src generalizing dst with
  | nil => exact absurd hfind (by simp [tableLookup])
  | cons p rest ih =>
    obtain ⟨pk, pv⟩ := p
    rw [List.map_cons, List.nodup_cons] at hnodup
    rw [tableAddAll, List.foldl_cons]
    have hrest : List.foldl (fun acc q => tableInsert acc q.1 q.2)
        (tableInsert dst pk pv) rest =
        tableAddAll rest (tableInsert dst pk pv) := rfl
    have hunfold : tableLookup ((pk, pv) :: rest) k =
        if pk == k then some pv else tableLookup rest k := rfl
    by_cases hkk : pk = k
    · subst hkk
      have hv : v = pv := by
        rw [hunfold, if_pos (by simp)] at hfind
        exact (Option.some.injEq _ _ ▸ hfind).symm
      have hnone : ∀ q ∈ rest, q.1 ≠ pk := by
        intro q hq hq'
        have hmem : q.1 ∈ rest.map Prod.fst := List.mem_map_of_mem Prod.fst hq
        rw [hq'] at hmem
        exact hnodup.1 hmem
      rw [hrest, tableLookup_addAll_not_mem rest pk hnone, tableLookup_insert_self, hv]
    · have hfind' : tableLookup rest k = some v := by
        rw [hunfold, if_neg (by simp [hkk])] at hfind
        exact hfind
      rw [hrest]
      exact ih hnodup.2 hfind' _

/-- C1 (counterexample): compiling `class B < A { }` at the top level
emits `Class "B"; DefineGlobal "B"; GetGlobal "A"; GetGlobal "B";
Inherit` — the superclass is loaded *before* the subclass — so in the
state that dispatches `Inherit` the subclass is on **top** of the stack
and the superclass below it, not "subclass below superclass" as the
claim states (running the prefix with `A` predefined leaves the stack
`[B-class, A-class]`, top first). -/
theorem c1_counterexample_subclass_on_top :
    (class_decl_to_inherit "B" "A").code =
      [.Class 0, .DefineGlobal 0, .GetGlobal 1, .GetGlobal 2, .Inherit] ∧
    (class_decl_to_inherit "B" "A").chunk.values =
      [.String "B", .String "A", .String "B"] ∧
    runToInherit (class_decl_to_inherit "B" "A").chunk [("A", Value.Class 0)]
        [⟨"A", [("greet", 7)]⟩] (class_decl_to_inherit "B" "A").code [] =
      some ([⟨"A", [("greet", 7)]⟩, ⟨"B", []⟩],
        [("B", Value.Class 1), ("A", Value.Class 0)],
        [Value.Class 1, Value.Class 0]) ∧
    ¬ subBelowSuper [Value.Class 1, Value.Class 0] 1 0 := by
  refine ⟨rfl, rfl, rfl, fun h => ?_⟩
  obtain ⟨h0, -⟩ := h
  simp [subBelowSuper] at h0

/-- C1 (amended): executing `Inherit` on a stack whose top is the
subclass and whose next slot is the superclass (the layout
`class_declaration` emits) copies every entry of the superclass's method
table into the subclass's method table and pops the subclass, leaving
the superclass on the stack as the synthetic `super` local; afterwards
the subclass resolves every superclass method name to the copied
closure. -/
theorem c1_inherit_copies_methods (classes : List ClassObj) (stack : List Value)
    (subH supH : Nat) (rest : List Value) (sub sup : ClassObj)
    (hstack : stack = Value.Class subH :: Value.Class supH :: rest)
    (hsub : classes[subH]? = some sub) (hsup : classes[supH]? = some sup)
    (hnodup : (sup.methods.map Prod.fst).Nodup) :
    execInherit classes stack =
      some (classes.set subH { sub with methods := tableAddAll sup.methods sub.methods },
        Value.Class supH :: rest) ∧
    ∃ sub', (classes.set subH
        { sub with methods := tableAddAll sup.methods sub.methods })[subH]? = some sub' ∧
      sub'.name = sub.name ∧
      ∀ m c, tableLookup sup.methods m = some c → tableLookup sub'.methods m = some c := by
  subst hstack
  have hlt : subH < classes.length := by
    by_contra hcon
    rw [List.getElem?_eq_none (by omega)] at hsub
    cases hsub
  constructor
  · rw [execInherit, hsub, hsup]
  · refine ⟨_, List.getElem?_set_self hlt, rfl, ?_⟩
    intro m c hm
    exact tableLookup_addAll sup.methods m c hnodup hm sub.methods

/-- C1 (witness): a concrete superclass `A` with method `greet` and
subclass `B`; after `Inherit` the superclass stays on the stack and `B`
resolves `greet` to `A`'s closure. -/
theorem c1_inherit_copies_methods_witness :
    execInherit [⟨"A", [("greet", 7)]⟩, ⟨"B", []⟩] [Value.Class 1, Value.Class 0] =
      some (([⟨"A", [("greet", 7)]⟩, ⟨"B", []⟩] : List ClassObj).set 1
          { name := "B", methods := tableAddAll [("greet", 7)] [] },
        [Value.Class 0]) ∧
    ∃ sub' : ClassObj, (([⟨"A", [("greet", 7)]⟩, ⟨"B", []⟩] : List ClassObj).set 1
        { name := "B", methods := tableAddAll [("greet", 7)] [] })[1]? = some sub' ∧
      sub'.name = "B" ∧
      ∀ m c, tableLookup [("greet", 7)] m = some c → tableLookup sub'.methods m = some c :=
  c1_inherit_copies_methods [⟨"A", [("greet", 7)]⟩, ⟨"B", []⟩]
    [Value.Class 1, Value.Class 0] 1 0 [] ⟨"B", []⟩ ⟨"A", [("greet", 7)]⟩
    rfl rfl rfl (by simp)

/-- C8: after every garbage collection, `bytes_allocated` equals the sum
of the surviving heap objects' sizes plus the surviving interned
strings' sizes; every surviving object and intern-table entry has its
mark bit cleared; every surviving intern-table entry is the unmarked
copy of a previously *marked* entry with the same key, handle and size
(so every unmarked interned string has been evicted); and every marked
intern-table entry survives with the same key and handle. -/
theorem c8_gc_sweep_accounting (h : HeapState) :
    (collect_garbage h).bytes_allocated =
      sumSizes (collect_garbage h).objects +
        sumSizesInterned (collect_garbage h).interned ∧
    (∀ o ∈ (collect_garbage h).objects, o.marked = false) ∧
    (∀ kv ∈ (collect_garbage h).interned, kv.2.marked = false) ∧
    (∀ kv ∈ (collect_garbage h).interned, ∃ kv₀ ∈ h.interned,
      kv₀.2.marked = true ∧ kv.1 = kv₀.1 ∧ kv.2.id = kv₀.2.id ∧ kv.2.size = kv₀.2.size) ∧
    (∀ kv ∈ h.interned, kv.2.marked = true →
      (kv.1, { kv.2 with marked := false }) ∈ (collect_garbage h).interned) := by
  refine ⟨?_, ?_, ?_, ?_, ?_⟩
  · simp only [collect_garbage, sweep_heap]
    exact Nat.add_comm _ _
  · intro o ho
    simp only [collect_garbage, sweep_heap, List.mem_map] at ho
    obtain ⟨o₀, -, rfl⟩ := ho
    rfl
  · intro kv hkv
    simp only [collect_garbage, sweep_heap, List.mem_map] at hkv
    obtain ⟨kv₀, -, rfl⟩ := hkv
    rfl
  · intro kv hkv
    simp only [collect_garbage, sweep_heap, List.mem_map] at hkv
    obtain ⟨kv₀, hkv₀, rfl⟩ := hkv
    rw [List.mem_filter] at hkv₀
    exact ⟨kv₀, hkv₀.1, by simpa using hkv₀.2, rfl, rfl, rfl⟩
  · intro kv hkv hmark
    simp only [collect_garbage, sweep_heap, List.mem_map]
    exact ⟨kv, List.mem_filter.mpr ⟨hkv, by simpa using hmark⟩, rfl⟩

/-- C8 (witness): on the concrete post-mark heap `hExample`, the marked
interned string survives with its handle, and the accounting identity
holds. -/
theorem c8_gc_sweep_accounting_witness :
    (("init", { marked := false, size := 5, id := 2 }) : String × HeapObjM) ∈
      (collect_garbage hExample).interned ∧
    (collect_garbage hExample).bytes_allocated =
      sumSizes (collect_garbage hExample).objects +
        sumSizesInterned (collect_garbage hExample).interned :=
  ⟨(c8_gc_sweep_accounting hExample).2.2.2.2 ("init", ⟨true, 5, 2⟩)
      (by simp [hExample]) rfl,
   (c8_gc_sweep_accounting hExample).1⟩

/-- C2 (witness): capturing slot 4 on the ascending all-open list
`[3, 7]` inserts between the entries; closing at threshold 5 keeps only
the open entry targeting 3. -/
theorem c2_open_upvalue_list_sorted_witness :
    (targetsAscending (capture_upvalue
        [{ target := 3, closed := false }, { target := 7, closed := false }] 4) ∧
      allOpen (capture_upvalue
        [{ target := 3, closed := false }, { target := 7, closed := false }] 4) ∧
      ((capture_upvalue
        [{ target := 3, closed := false }, { target := 7, closed := false }] 4).map
          fun e => e.target).Nodup ∧
      ∃ e ∈ capture_upvalue
        [{ target := 3, closed := false }, { target := 7, closed := false }] 4,
        e.target = 4) ∧
    (targetsAscending (openEntries (close_upvalues
        [{ target := 3, closed := false }, { target := 7, closed := false }] 5)) ∧
      ((openEntries (close_upvalues
        [{ target := 3, closed := false }, { target := 7, closed := false }] 5)).map
          fun e => e.target).Nodup ∧
      ∀ e ∈ openEntries (close_upvalues
        [{ target := 3, closed := false }, { target := 7, closed := false }] 5),
        e.target < 5) :=
  c2_open_upvalue_list_sorted
    [{ target := 3, closed := false }, { target := 7, closed := false }] 4 5
    (by rw [targetsAscending]; decide) (by intro e he; fin_cases he <;> rfl)

/-- C9 (witness): a two-operand opcode and a `u16`-offset opcode, with
trailing bytes. -/
theorem c9_codec_roundtrip_witness :
    Instruction.decode ((Instruction.SuperInvoke 200 3).encode ++ [7, 9]) =
      some (.SuperInvoke 200 3, [7, 9]) ∧
    Instruction.decode ((Instruction.JumpBack 40000).encode ++ [1]) =
      some (.JumpBack 40000, [1]) :=
  ⟨c9_codec_roundtrip (.SuperInvoke 200 3) [7, 9] (by decide),
   c9_codec_roundtrip (.JumpBack 40000) [1] (by decide)⟩

end RustLox
